import Mathlib

/-!
Verification of the Mamdani-style fuzzy inference engine exercised by the
tipping-problem notebook (`01_FuzzyControlSystem.ipynb`).  The notebook calls
the engine (variables, membership functions, rules, control system,
simulation, defuzzification) whose implementation is not part of this
repository, so the engine components are modelled from the specification.
Degrees and universe samples are rational numbers, making every definition
executable.
-/

namespace Fuzzy

/-- Minimum of a list of rationals (0 for the empty list). -/
def listMin : List ℚ → ℚ
  | [] => 0
  | a :: t => t.foldl min a

/-- Maximum of a list of rationals (0 for the empty list). -/
def listMax : List ℚ → ℚ
  | [] => 0
  | a :: t => t.foldl max a

/-- Modelled from the spec: triangular membership function `trimf` with
control points `a ≤ b ≤ c`, evaluated at a single universe point `x`.
Degree is 0 outside the support, ramps linearly from `a` up to `b` and back
down to `c`, and equals 1 exactly at `x = b`. -/
def trimfAt (a b c x : ℚ) : ℚ :=
  if x = b then 1
  else if a < x ∧ x < b then (x - a) / (b - a)
  else if b < x ∧ x < c then (c - x) / (c - b)
  else 0

/-- Modelled from the spec: `trimf` materialized as a vector of degrees
aligned 1:1 with the universe samples. -/
def trimf (u : List ℚ) (a b c : ℚ) : List ℚ :=
  u.map (trimfAt a b c)

/-- Modelled from the spec: trapezoidal membership function `trapmf` with
control points `a ≤ b ≤ c ≤ d`, evaluated at a single point. -/
def trapmfAt (a b c d x : ℚ) : ℚ :=
  if b ≤ x ∧ x ≤ c then 1
  else if a < x ∧ x < b then (x - a) / (b - a)
  else if c < x ∧ x < d then (d - x) / (d - c)
  else 0

/-- Modelled from the spec: `trapmf` materialized over a universe. -/
def trapmf (u : List ℚ) (a b c d : ℚ) : List ℚ :=
  u.map (trapmfAt a b c d)

/-- Modelled from the spec: automatic partition `automf(3)`: three evenly
spaced, overlapping triangular terms spanning the universe's min/max, with
the canonical labels "poor", "average", "good". -/
def automf3 (u : List ℚ) : List (String × List ℚ) :=
  let lo := listMin u
  let hi := listMax u
  let h := (hi - lo) / 2
  [("poor", trimf u (lo - h) lo (lo + h)),
   ("average", trimf u lo (lo + h) hi),
   ("good", trimf u (hi - h) hi (hi + h))]

/-- Modelled from the spec: `interpMembership` walks the grid looking for
the two samples bracketing `x` and interpolates linearly between them; to
the right of the grid it clamps to the last stored degree. -/
def interpGo (x0 y0 : ℚ) : List ℚ → List ℚ → ℚ → ℚ
  | x1 :: xs, y1 :: ys, x =>
      if x ≤ x1 then y0 + (y1 - y0) * (x - x0) / (x1 - x0)
      else interpGo x1 y1 xs ys x
  | _, _, _ => y0

/-- Modelled from the spec: `interpMembership(universe, degreesVector, x)`
linearly interpolates the stored degree vector at an arbitrary crisp `x`,
clamping to the nearest boundary degree outside the grid range. -/
def interpMembership (xs ys : List ℚ) (x : ℚ) : ℚ :=
  match xs, ys with
  | x0 :: xs', y0 :: ys' => if x ≤ x0 then y0 else interpGo x0 y0 xs' ys' x
  | _, _ => 0

/-- Modelled from the spec: a fuzzy variable owns a name, a universe, and a
mapping from term label to the term's membership-degree vector. -/
structure FuzzyVariable where
  name : String
  univ : List ℚ
  terms : List (String × List ℚ)
deriving Repr, DecidableEq

/-- Degree vector of a term of a variable (empty vector if absent). -/
def FuzzyVariable.termVec (v : FuzzyVariable) (lbl : String) : List ℚ :=
  (v.terms.lookup lbl).getD []

/-- Modelled from the spec: a rule antecedent is an expression tree whose
leaves are (variable, term) references combined by fuzzy AND/OR/NOT. -/
inductive FExpr where
  | leaf (var lbl : String)
  | and (p q : FExpr)
  | or (p q : FExpr)
  | not (e : FExpr)
deriving Repr, DecidableEq

/-- Modelled from the spec: node evaluation under the default min/max
semantics — a leaf reads its fuzzified degree, AND takes min, OR takes max,
NOT takes `1 - degree`. -/
def FExpr.eval (env : String → String → ℚ) : FExpr → ℚ
  | .leaf v t => env v t
  | .and p q => min (p.eval env) (q.eval env)
  | .or p q => max (p.eval env) (q.eval env)
  | .not e => 1 - e.eval env

/-- Antecedent variable names referenced by an expression tree. -/
def FExpr.vars : FExpr → List String
  | .leaf v _ => [v]
  | .and p q => p.vars ++ q.vars
  | .or p q => p.vars ++ q.vars
  | .not e => e.vars

/-- A permutation or re-association of the children of AND/OR nodes,
anywhere inside an antecedent expression tree. -/
inductive Reassoc : FExpr → FExpr → Prop where
  | andComm (p q : FExpr) : Reassoc (.and p q) (.and q p)
  | andAssoc (p q r : FExpr) : Reassoc (.and (.and p q) r) (.and p (.and q r))
  | orComm (p q : FExpr) : Reassoc (.or p q) (.or q p)
  | orAssoc (p q r : FExpr) : Reassoc (.or (.or p q) r) (.or p (.or q r))
  | andCongr {p p' q q' : FExpr} :
      Reassoc p p' → Reassoc q q' → Reassoc (.and p q) (.and p' q')
  | orCongr {p p' q q' : FExpr} :
      Reassoc p p' → Reassoc q q' → Reassoc (.or p q) (.or p' q')
  | notCongr {e e' : FExpr} : Reassoc e e' → Reassoc (.not e) (.not e')
  | refl (e : FExpr) : Reassoc e e
  | trans {e e' e'' : FExpr} : Reassoc e e' → Reassoc e' e'' → Reassoc e e''

/-- Modelled from the spec: a rule is an antecedent expression tree, a list
of consequent (variable, term) targets, and a scalar weight in (0,1]. -/
structure Rule where
  antecedent : FExpr
  consequent : List (String × String)
  weight : ℚ
deriving Repr, DecidableEq

/-- Modelled from the spec: firing strength of a rule is the tree value at
the root combined with the rule's weight via `min(value, weight)`. -/
def firingStrength (env : String → String → ℚ) (r : Rule) : ℚ :=
  min (r.antecedent.eval env) r.weight

/-- Modelled from the spec: a control system is the immutable set of rules
together with the antecedent and consequent variables they reference. -/
structure ControlSystem where
  antecedents : List FuzzyVariable
  consequents : List FuzzyVariable
  rules : List Rule
deriving Repr, DecidableEq

/-- Antecedent variable names referenced by at least one rule. -/
def ControlSystem.requiredInputs (cs : ControlSystem) : List String :=
  ((cs.rules.map (fun r => r.antecedent.vars)).flatten).dedup

/-- Modelled from the spec: fuzzification — the degree of term `t` of
antecedent variable `v` at the crisp input supplied for `v`, computed by
interpolating the term's stored degree vector. -/
def fuzzEnv (cs : ControlSystem) (inputs : List (String × ℚ)) (v t : String) : ℚ :=
  match cs.antecedents.find? (fun a => a.name == v), inputs.lookup v with
  | some va, some x => interpMembership va.univ (va.termVec t) x
  | _, _ => 0

/-- Pointwise maximum of two degree vectors. -/
def zipMax (a b : List ℚ) : List ℚ :=
  List.zipWith max a b

/-- Modelled from the spec: implication clips (min) a consequent term's
membership vector by the rule's firing strength. -/
def clipVec (s : ℚ) (m : List ℚ) : List ℚ :=
  m.map (min s)

/-- Modelled from the spec: aggregation for one consequent variable folds
the implied sets of all rules touching it via pointwise max, starting from
the all-zero set. -/
def aggregateFor (cs : ControlSystem) (env : String → String → ℚ)
    (cv : FuzzyVariable) : List ℚ :=
  cs.rules.foldl
    (fun acc r =>
      (r.consequent.filter (fun p => p.1 == cv.name)).foldl
        (fun acc2 p => zipMax acc2 (clipVec (firingStrength env r) (cv.termVec p.2)))
        acc)
    (cv.univ.map (fun _ => 0))

/-- Failure of defuzzification (zero total area: no rule fired). -/
inductive DefuzzError where
  | zeroArea
deriving Repr, DecidableEq

/-- Modelled from the spec: centroid defuzzification
`Σ(x_i·m_i) / Σ(m_i)`, signalling an error on zero total area instead of
silently returning 0 or NaN. -/
def defuzzCentroid (xs m : List ℚ) : Except DefuzzError ℚ :=
  if m.sum = 0 then .error .zeroArea
  else .ok (((xs.zip m).map (fun p => p.1 * p.2)).sum / m.sum)

/-- Walk the (sample, degree) pairs accumulating area from the left; return
the first sample at which the accumulated area reaches `half`. -/
def bisGo : List (ℚ × ℚ) → ℚ → ℚ → Option ℚ
  | [], _, _ => none
  | (x, d) :: rest, acc, half =>
      if half ≤ acc + d then some x else bisGo rest (acc + d) half

/-- Modelled from the spec: bisector defuzzification — the sample at which
the cumulative area from the left first reaches half of the total area;
zero total area is an error. -/
def defuzzBisector (xs m : List ℚ) : Except DefuzzError ℚ :=
  if m.sum = 0 then .error .zeroArea
  else
    match bisGo (xs.zip m) 0 (m.sum / 2) with
    | some r => .ok r
    | none => .error .zeroArea

/-- Samples whose degree attains the global maximum of `m`. -/
def peaks (xs m : List ℚ) : List ℚ :=
  ((xs.zip m).filter (fun p => p.2 = listMax m)).map Prod.fst

/-- Modelled from the spec: mean of maximum — the arithmetic mean of all
samples whose degree equals the global maximum of `m`. -/
def defuzzMom (xs m : List ℚ) : ℚ :=
  (peaks xs m).sum / (peaks xs m).length

/-- Modelled from the spec: smallest of maximum. -/
def defuzzSom (xs m : List ℚ) : ℚ :=
  listMin (peaks xs m)

/-- Modelled from the spec: largest of maximum. -/
def defuzzLom (xs m : List ℚ) : ℚ :=
  listMax (peaks xs m)

/-- Errors surfaced by a simulation run. -/
inductive SimError where
  | missingInput (vars : List String)
  | defuzzFailed (var : String)
deriving Repr, DecidableEq

/-- Map a fallible function over a list, stopping at the first error. -/
def mapExcept (f : α → Except ε β) : List α → Except ε (List β)
  | [] => .ok []
  | a :: t =>
      match f a, mapExcept f t with
      | .ok b, .ok bs => .ok (b :: bs)
      | .error e, _ => .error e
      | .ok _, .error e => .error e

/-- Modelled from the spec: the crisp outputs of a control system at a
crisp input map — for every consequent variable, centroid-defuzzify its
aggregated membership vector. -/
def computeOutputs (cs : ControlSystem) (inputs : List (String × ℚ)) :
    Except SimError (List (String × ℚ)) :=
  mapExcept
    (fun cv =>
      match defuzzCentroid cv.univ (aggregateFor cs (fuzzEnv cs inputs) cv) with
      | .ok y => .ok (cv.name, y)
      | .error _ => .error (SimError.defuzzFailed cv.name))
    cs.consequents

/-- Modelled from the spec: a simulation holds crisp inputs and, after a
successful compute, crisp outputs; it never mutates the control system. -/
structure Simulation where
  system : ControlSystem
  inputs : List (String × ℚ)
  outputs : List (String × ℚ)
deriving Repr, DecidableEq

/-- Modelled from the spec: `compute` requires every antecedent referenced
by at least one rule to have a crisp input value, otherwise it fails with a
`MissingInputError` naming the absent variables; on success it populates
the outputs and leaves the inputs untouched. -/
def Simulation.compute (s : Simulation) : Except SimError Simulation :=
  let missing := s.system.requiredInputs.filter (fun v => (s.inputs.lookup v).isNone)
  if missing.isEmpty then
    match computeOutputs s.system s.inputs with
    | .ok outs => .ok { s with outputs := outs }
    | .error e => .error e
  else .error (.missingInput missing)

namespace Tipping

/-- Universe `np.arange(0, 11, 1)` of the quality and service variables. -/
def u0to10 : List ℚ := [0, 1, 2, 3, 4, 5, 6, 7, 8, 9, 10]

/-- Universe `np.arange(0, 26, 1)` of the tip variable. -/
def u0to25 : List ℚ :=
  [0, 1, 2, 3, 4, 5, 6, 7, 8, 9, 10, 11, 12, 13, 14, 15, 16, 17, 18, 19,
   20, 21, 22, 23, 24, 25]

/-- `quality = ctrl.Antecedent(np.arange(0, 11, 1), 'quality')` with
`quality.automf(3)`. -/
def qualityVar : FuzzyVariable :=
  { name := "quality", univ := u0to10, terms := automf3 u0to10 }

/-- `service = ctrl.Antecedent(np.arange(0, 11, 1), 'service')` with
`service.automf(3)`. -/
def serviceVar : FuzzyVariable :=
  { name := "service", univ := u0to10, terms := automf3 u0to10 }

/-- `tip = ctrl.Consequent(np.arange(0, 26, 1), 'tip')` with the custom
terms low = trimf(0,0,13), medium = trimf(0,13,25), high = trimf(13,25,25). -/
def tipVar : FuzzyVariable :=
  { name := "tip", univ := u0to25,
    terms := [("low", trimf u0to25 0 0 13),
              ("medium", trimf u0to25 0 13 25),
              ("high", trimf u0to25 13 25 25)] }

/-- `rule1 = ctrl.Rule(quality['poor'] | service['poor'], tip['low'])`. -/
def rule1 : Rule :=
  { antecedent := .or (.leaf "quality" "poor") (.leaf "service" "poor"),
    consequent := [("tip", "low")], weight := 1 }

/-- `rule2 = ctrl.Rule(service['average'], tip['medium'])`. -/
def rule2 : Rule :=
  { antecedent := .leaf "service" "average",
    consequent := [("tip", "medium")], weight := 1 }

/-- `rule3 = ctrl.Rule(service['good'] | quality['good'], tip['high'])`. -/
def rule3 : Rule :=
  { antecedent := .or (.leaf "service" "good") (.leaf "quality" "good"),
    consequent := [("tip", "high")], weight := 1 }

/-- `tipping_ctrl = ctrl.ControlSystem([rule1, rule2, rule3])`. -/
def tippingCtrl : ControlSystem :=
  { antecedents := [qualityVar, serviceVar],
    consequents := [tipVar],
    rules := [rule1, rule2, rule3] }

/-- The crisp inputs quality = 6.5 and service = 9.8. -/
def tipInputs : List (String × ℚ) := [("quality", 13/2), ("service", 49/5)]

/-- The simulation with `input['quality'] = 6.5` and `input['service'] = 9.8`. -/
def tipping : Simulation :=
  { system := tippingCtrl,
    inputs := tipInputs,
    outputs := [] }

/-- The simulation in which `service` was never given a value. -/
def tippingNoService : Simulation :=
  { system := tippingCtrl,
    inputs := [("quality", 13/2)],
    outputs := [] }

/-- Degree vector of the "poor" term over `[0..10]`. -/
def poorVec : List ℚ := [1, 4/5, 3/5, 2/5, 1/5, 0, 0, 0, 0, 0, 0]

/-- Degree vector of the "average" term over `[0..10]`. -/
def averageVec : List ℚ :=
  [0, 1/5, 2/5, 3/5, 4/5, 1, 4/5, 3/5, 2/5, 1/5, 0]

/-- Degree vector of the "good" term over `[0..10]`. -/
def goodVec : List ℚ := [0, 0, 0, 0, 0, 0, 1/5, 2/5, 3/5, 4/5, 1]

/-- Degree vector of the "low" tip term over `[0..25]`. -/
def lowVec : List ℚ :=
  [1, 12/13, 11/13, 10/13, 9/13, 8/13, 7/13, 6/13, 5/13, 4/13, 3/13,
   2/13, 1/13, 0, 0, 0, 0, 0, 0, 0, 0, 0, 0, 0, 0, 0]

/-- Degree vector of the "medium" tip term over `[0..25]`. -/
def mediumVec : List ℚ :=
  [0, 1/13, 2/13, 3/13, 4/13, 5/13, 6/13, 7/13, 8/13, 9/13, 10/13,
   11/13, 12/13, 1, 11/12, 5/6, 3/4, 2/3, 7/12, 1/2, 5/12, 1/3, 1/4,
   1/6, 1/12, 0]

/-- Degree vector of the "high" tip term over `[0..25]`. -/
def highVec : List ℚ :=
  [0, 0, 0, 0, 0, 0, 0, 0, 0, 0, 0, 0, 0, 0, 1/12, 1/6, 1/4, 1/3,
   5/12, 1/2, 7/12, 2/3, 3/4, 5/6, 11/12, 1]

/-- Aggregated membership vector for the tip variable at quality 6.5 and
service 9.8. -/
def aggTipVec : List ℚ :=
  [0, 1/25, 1/25, 1/25, 1/25, 1/25, 1/25, 1/25, 1/25, 1/25, 1/25, 1/25,
   1/25, 1/25, 1/12, 1/6, 1/4, 1/3, 5/12, 1/2, 7/12, 2/3, 3/4, 5/6,
   11/12, 24/25]

/-- The crisp tip computed for quality 6.5 and service 9.8. -/
def tipValue : ℚ := 21196 / 1047

/-- The tipping simulation state after a successful compute. -/
def tippingDone : Simulation :=
  { system := tippingCtrl,
    inputs := tipInputs,
    outputs := [("tip", tipValue)] }

end Tipping

/-! ### Elementary facts about list minima and maxima -/

theorem foldl_min_le_init (t : List ℚ) (a : ℚ) : t.foldl min a ≤ a := by
  induction t generalizing a with
  | nil => exact le_refl a
  | cons b t ih => exact le_trans (ih (min a b)) (min_le_left a b)

theorem foldl_min_le_mem (t : List ℚ) (a b : ℚ) (hb : b ∈ t) :
    t.foldl min a ≤ b := by
  induction t generalizing a with
  | nil => cases hb
  | cons c t ih =>
      rcases List.mem_cons.mp hb with h | h
      · subst h
        exact le_trans (foldl_min_le_init t (min a b)) (min_le_right a b)
      · exact ih (min a c) h

theorem foldl_min_choice (t : List ℚ) (a : ℚ) :
    t.foldl min a = a ∨ t.foldl min a ∈ t := by
  induction t generalizing a with
  | nil => exact Or.inl rfl
  | cons c t ih =>
      rcases ih (min a c) with h | h
      · rcases min_choice a c with hc | hc
        · exact Or.inl (by rw [List.foldl_cons, h, hc])
        · exact Or.inr (by rw [List.foldl_cons, h, hc]; exact List.mem_cons_self c t)
      · exact Or.inr (List.mem_cons_of_mem c h)

theorem init_le_foldl_max (t : List ℚ) (a : ℚ) : a ≤ t.foldl max a := by
  induction t generalizing a with
  | nil => exact le_refl a
  | cons b t ih => exact le_trans (le_max_left a b) (ih (max a b))

theorem mem_le_foldl_max (t : List ℚ) (a b : ℚ) (hb : b ∈ t) :
    b ≤ t.foldl max a := by
  induction t generalizing a with
  | nil => cases hb
  | cons c t ih =>
      rcases List.mem_cons.mp hb with h | h
      · subst h
        exact le_trans (le_max_right a b) (init_le_foldl_max t (max a b))
      · exact ih (max a c) h

theorem foldl_max_choice (t : List ℚ) (a : ℚ) :
    t.foldl max a = a ∨ t.foldl max a ∈ t := by
  induction t generalizing a with
  | nil => exact Or.inl rfl
  | cons c t ih =>
      rcases ih (max a c) with h | h
      · rcases max_choice a c with hc | hc
        · exact Or.inl (by rw [List.foldl_cons, h, hc])
        · exact Or.inr (by rw [List.foldl_cons, h, hc]; exact List.mem_cons_self c t)
      · exact Or.inr (List.mem_cons_of_mem c h)

theorem listMin_le (l : List ℚ) (b : ℚ) (hb : b ∈ l) : listMin l ≤ b := by
  cases l with
  | nil => cases hb
  | cons a t =>
      rcases List.mem_cons.mp hb with h | h
      · subst h; exact foldl_min_le_init t b
      · exact foldl_min_le_mem t a b h

theorem le_listMax (l : List ℚ) (b : ℚ) (hb : b ∈ l) : b ≤ listMax l := by
  cases l with
  | nil => cases hb
  | cons a t =>
      rcases List.mem_cons.mp hb with h | h
      · subst h; exact init_le_foldl_max t b
      · exact mem_le_foldl_max t a b h

theorem listMin_mem (l : List ℚ) (h : l ≠ []) : listMin l ∈ l := by
  cases l with
  | nil => exact absurd rfl h
  | cons a t =>
      rcases foldl_min_choice t a with hc | hc
      · rw [listMin, hc]; exact List.mem_cons_self a t
      · exact List.mem_cons_of_mem a hc

theorem listMax_mem (l : List ℚ) (h : l ≠ []) : listMax l ∈ l := by
  cases l with
  | nil => exact absurd rfl h
  | cons a t =>
      rcases foldl_max_choice t a with hc | hc
      · rw [listMax, hc]; exact List.mem_cons_self a t
      · exact List.mem_cons_of_mem a hc

/-- Lower bound on a sum from a uniform lower bound on the entries. -/
theorem length_mul_le_sum (l : List ℚ) (m : ℚ) (h : ∀ b ∈ l, m ≤ b) :
    (l.length : ℚ) * m ≤ l.sum := by
  induction l with
  | nil => simp
  | cons a t ih =>
      have ha : m ≤ a := h a (List.mem_cons_self a t)
      have ht : (t.length : ℚ) * m ≤ t.sum :=
        ih (fun b hb => h b (List.mem_cons_of_mem a hb))
      simp only [List.length_cons, List.sum_cons]
      push_cast
      nlinarith

/-- Upper bound on a sum from a uniform upper bound on the entries. -/
theorem sum_le_length_mul (l : List ℚ) (m : ℚ) (h : ∀ b ∈ l, b ≤ m) :
    l.sum ≤ (l.length : ℚ) * m := by
  induction l with
  | nil => simp
  | cons a t ih =>
      have ha : a ≤ m := h a (List.mem_cons_self a t)
      have ht : t.sum ≤ (t.length : ℚ) * m :=
        ih (fun b hb => h b (List.mem_cons_of_mem a hb))
      simp only [List.length_cons, List.sum_cons]
      push_cast
      nlinarith

/-- The arithmetic mean of a non-empty list lies between its minimum and
its maximum. -/
theorem mean_between (l : List ℚ) (h : l ≠ []) :
    listMin l ≤ l.sum / l.length ∧ l.sum / l.length ≤ listMax l := by
  have hlen : 0 < (l.length : ℚ) := by
    have : 0 < l.length := List.length_pos.mpr h
    exact_mod_cast this
  constructor
  · rw [le_div_iff₀ hlen]
    have := length_mul_le_sum l (listMin l) (fun b hb => listMin_le l b hb)
    linarith
  · rw [div_le_iff₀ hlen]
    have := sum_le_length_mul l (listMax l) (fun b hb => le_listMax l b hb)
    linarith

/-! ### Elementary facts about the triangular membership shape -/

theorem trimfAt_peak (a b c : ℚ) : trimfAt a b c b = 1 := by
  simp [trimfAt]

theorem trimfAt_left_ramp (a b c x : ℚ) (h1 : a < x) (h2 : x < b) :
    trimfAt a b c x = (x - a) / (b - a) := by
  rw [trimfAt, if_neg (ne_of_lt h2), if_pos ⟨h1, h2⟩]

theorem trimfAt_right_ramp (a b c x : ℚ) (h1 : b < x) (h2 : x < c) :
    trimfAt a b c x = (c - x) / (c - b) := by
  rw [trimfAt, if_neg (ne_of_gt h1),
    if_neg (by rintro ⟨_, h⟩; exact absurd h1 (not_lt.mpr (le_of_lt h))),
    if_pos ⟨h1, h2⟩]

theorem trimfAt_of_le_left (a b c x : ℚ) (hx : x ≤ a) (hab : a < b) :
    trimfAt a b c x = 0 := by
  have hxb : x < b := lt_of_le_of_lt hx hab
  rw [trimfAt, if_neg (ne_of_lt hxb),
    if_neg (by rintro ⟨h, _⟩; exact absurd hx (not_le.mpr h)),
    if_neg (by rintro ⟨h, _⟩; exact absurd hxb (not_lt.mpr (le_of_lt h)))]

theorem trimfAt_of_ge_right (a b c x : ℚ) (hx : c ≤ x) (hbc : b < c) :
    trimfAt a b c x = 0 := by
  have hbx : b < x := lt_of_lt_of_le hbc hx
  rw [trimfAt, if_neg (ne_of_gt hbx),
    if_neg (by rintro ⟨_, h⟩; exact absurd hbx (not_lt.mpr (le_of_lt h))),
    if_neg (by rintro ⟨_, h⟩; exact absurd hx (not_le.mpr h))]

theorem trimfAt_nonneg (a b c x : ℚ) : 0 ≤ trimfAt a b c x := by
  rw [trimfAt]
  split_ifs with h1 h2 h3
  · exact zero_le_one
  · exact div_nonneg (by linarith [h2.1]) (by linarith [h2.1, h2.2])
  · exact div_nonneg (by linarith [h3.2]) (by linarith [h3.1, h3.2])
  · exact le_refl 0

theorem trimfAt_le_one (a b c x : ℚ) : trimfAt a b c x ≤ 1 := by
  rw [trimfAt]
  split_ifs with h1 h2 h3
  · exact le_refl 1
  · rw [div_le_one (by linarith [h2.1, h2.2])]; linarith [h2.2]
  · rw [div_le_one (by linarith [h3.1, h3.2])]; linarith [h3.1]
  · exact zero_le_one

theorem trimfAt_mono_up (a b c x1 x2 : ℚ) (ha : a ≤ x1) (h12 : x1 ≤ x2)
    (hb : x2 ≤ b) : trimfAt a b c x1 ≤ trimfAt a b c x2 := by
  rcases eq_or_lt_of_le hb with heq | hb2
  · rw [heq, trimfAt_peak]; exact trimfAt_le_one a b c x1
  · have hx1b : x1 < b := lt_of_le_of_lt h12 hb2
    rcases eq_or_lt_of_le ha with heq | ha1
    · rw [← heq, trimfAt_of_le_left a b c a (le_refl a) (lt_of_le_of_lt ha hx1b)]
      exact trimfAt_nonneg a b c x2
    · rw [trimfAt_left_ramp a b c x1 ha1 hx1b,
        trimfAt_left_ramp a b c x2 (lt_of_lt_of_le ha1 h12) hb2]
      have hba : (0:ℚ) < b - a := by linarith
      exact (div_le_div_iff_of_pos_right hba).mpr (by linarith)

theorem trimfAt_mono_down (a b c x1 x2 : ℚ) (hb : b ≤ x1) (h12 : x1 ≤ x2)
    (hc : x2 ≤ c) : trimfAt a b c x2 ≤ trimfAt a b c x1 := by
  rcases eq_or_lt_of_le hb with heq | hb1
  · rw [← heq, trimfAt_peak]; exact trimfAt_le_one a b c x2
  · have hbx2 : b < x2 := lt_of_lt_of_le hb1 h12
    rcases eq_or_lt_of_le hc with heq | hc2
    · rw [heq, trimfAt_of_ge_right a b c c (le_refl c) (lt_of_lt_of_le hbx2 hc)]
      exact trimfAt_nonneg a b c x1
    · rw [trimfAt_right_ramp a b c x2 hbx2 hc2,
        trimfAt_right_ramp a b c x1 hb1 (lt_of_le_of_lt h12 hc2)]
      have hcb : (0:ℚ) < c - b := by linarith
      exact (div_le_div_iff_of_pos_right hcb).mpr (by linarith)

/-- Pointwise partition-of-unity for the three `automf3` triangles: at any
point of `[lo, hi]` the degrees of poor, average and good sum to 1. -/
theorem automf3_pointwise_sum (lo hi x : ℚ) (hlt : lo < hi) (h1 : lo ≤ x)
    (h2 : x ≤ hi) :
    trimfAt (lo - (hi - lo) / 2) lo (lo + (hi - lo) / 2) x +
      trimfAt lo (lo + (hi - lo) / 2) hi x +
      trimfAt (hi - (hi - lo) / 2) hi (hi + (hi - lo) / 2) x = 1 := by
  set h := (hi - lo) / 2 with hdef
  have hh : 0 < h := by rw [hdef]; linarith
  have hmid : hi - h = lo + h := by rw [hdef]; ring
  have hhi : hi = lo + h + h := by rw [hdef]; ring
  rw [hmid]
  rcases lt_trichotomy x (lo + h) with hx | hx | hx
  · have hgood : trimfAt (lo + h) hi (hi + h) x = 0 :=
      trimfAt_of_le_left _ _ _ _ (le_of_lt hx) (by linarith)
    rcases eq_or_lt_of_le h1 with heq | hlox
    · rw [← heq] at hgood ⊢
      rw [trimfAt_peak, trimfAt_of_le_left lo (lo + h) hi lo
        (le_refl lo) (by linarith), hgood]
      ring
    · rw [trimfAt_right_ramp (lo - h) lo (lo + h) x hlox hx,
        trimfAt_left_ramp lo (lo + h) hi x hlox hx, hgood]
      have hne : (lo + h) - lo ≠ 0 := by intro hc; rw [sub_eq_zero] at hc; linarith
      field_simp
  · rw [hx, trimfAt_peak,
      trimfAt_of_ge_right (lo - h) lo (lo + h) (lo + h) (le_refl _) (by linarith),
      trimfAt_of_le_left (lo + h) hi (hi + h) (lo + h) (le_refl _) (by linarith)]
    ring
  · have hpoor : trimfAt (lo - h) lo (lo + h) x = 0 :=
      trimfAt_of_ge_right _ _ _ _ (le_of_lt hx) (by linarith)
    rcases eq_or_lt_of_le h2 with heq | hxhi
    · rw [heq] at hpoor ⊢
      rw [trimfAt_peak,
        trimfAt_of_ge_right lo (lo + h) hi hi (le_refl hi) (by linarith),
        hpoor]
      ring
    · rw [trimfAt_right_ramp lo (lo + h) hi x hx hxhi,
        trimfAt_left_ramp (lo + h) hi (hi + h) x hx hxhi, hpoor]
      have hne : hi - (lo + h) ≠ 0 := by
        intro hc; rw [sub_eq_zero] at hc; rw [← hc] at hhi; linarith
      field_simp

/-! ### Facts about the defuzzification helpers -/

theorem bisGo_some_mem (l : List (ℚ × ℚ)) :
    ∀ (acc half r : ℚ), bisGo l acc half = some r → r ∈ l.map Prod.fst := by
  induction l with
  | nil => intro acc half r h; simp [bisGo] at h
  | cons p t ih =>
      intro acc half r h
      obtain ⟨x, d⟩ := p
      rw [bisGo] at h
      by_cases hc : half ≤ acc + d
      · rw [if_pos hc] at h
        simp only [Option.some.injEq] at h
        simp [h]
      · rw [if_neg hc] at h
        exact List.mem_cons_of_mem _ (ih (acc + d) half r h)

theorem bisGo_total (l : List (ℚ × ℚ)) :
    ∀ (acc half : ℚ), l ≠ [] → half ≤ acc + (l.map Prod.snd).sum →
      ∃ r, bisGo l acc half = some r := by
  induction l with
  | nil => intro acc half hne _; exact absurd rfl hne
  | cons p t ih =>
      intro acc half _ h
      obtain ⟨x, d⟩ := p
      by_cases hc : half ≤ acc + d
      · exact ⟨x, by rw [bisGo, if_pos hc]⟩
      · have ht : t ≠ [] := by
          rintro rfl
          simp only [List.map_cons, List.map_nil, List.sum_cons,
            List.sum_nil, add_zero] at h
          exact hc h
        have h' : half ≤ acc + d + (t.map Prod.snd).sum := by
          simp only [List.map_cons, List.sum_cons] at h
          linarith
        obtain ⟨r, hr⟩ := ih (acc + d) half ht h'
        exact ⟨r, by rw [bisGo, if_neg hc]; exact hr⟩

theorem mem_peaks_mem (xs m : List ℚ) (r : ℚ) (h : r ∈ peaks xs m) :
    r ∈ xs := by
  rw [peaks] at h
  obtain ⟨⟨x, d⟩, hp, hx⟩ := List.mem_map.mp h
  cases hx
  exact (List.of_mem_zip (List.mem_of_mem_filter hp)).1

theorem exists_pair_in_zip (m : List ℚ) :
    ∀ (xs : List ℚ), xs.length = m.length → ∀ d ∈ m,
      ∃ x, (x, d) ∈ xs.zip m := by
  induction m with
  | nil => intro xs _ d hd; cases hd
  | cons b t ih =>
      intro xs hlen d hd
      cases xs with
      | nil => simp at hlen
      | cons a t' =>
          rcases List.mem_cons.mp hd with h | h
          · exact ⟨a, by rw [List.zip_cons_cons, h]; exact List.mem_cons_self _ _⟩
          · obtain ⟨x, hx⟩ := ih t' (by simpa using hlen) d h
            exact ⟨x, by rw [List.zip_cons_cons]; exact List.mem_cons_of_mem _ hx⟩

theorem peaks_ne_nil (xs m : List ℚ) (hlen : xs.length = m.length)
    (hm : m ≠ []) : peaks xs m ≠ [] := by
  obtain ⟨x, hx⟩ := exists_pair_in_zip m xs hlen (listMax m) (listMax_mem m hm)
  intro hnil
  have hmem : (x, listMax m) ∈ (xs.zip m).filter (fun p => p.2 = listMax m) :=
    List.mem_filter.mpr ⟨hx, by simp⟩
  have hmm := List.mem_map_of_mem Prod.fst hmem
  rw [peaks] at hnil
  rw [hnil] at hmm
  cases hmm

/-- Pointwise bounds for the weighted sum used by the centroid. -/
theorem weighted_sum_bounds (ps : List (ℚ × ℚ)) (mn mx : ℚ)
    (h : ∀ p ∈ ps, 0 ≤ p.2 ∧ mn ≤ p.1 ∧ p.1 ≤ mx) :
    mn * (ps.map Prod.snd).sum ≤ (ps.map (fun p => p.1 * p.2)).sum ∧
      (ps.map (fun p => p.1 * p.2)).sum ≤ mx * (ps.map Prod.snd).sum := by
  induction ps with
  | nil => simp
  | cons p t ih =>
      obtain ⟨hd, htl⟩ := ih (fun q hq => h q (List.mem_cons_of_mem p hq))
      obtain ⟨h0, hmn, hmx⟩ := h p (List.mem_cons_self p t)
      simp only [List.map_cons, List.sum_cons]
      constructor
      · nlinarith
      · nlinarith

/-! ### Concrete evaluation of the tipping scenario -/

namespace Tipping

theorem tippingCtrl_rules : tippingCtrl.rules = [rule1, rule2, rule3] := rfl

theorem tippingCtrl_ante : tippingCtrl.antecedents = [qualityVar, serviceVar] := rfl

theorem tippingCtrl_cons : tippingCtrl.consequents = [tipVar] := rfl

theorem tipping_inputs : tipping.inputs = tipInputs := rfl

theorem tipping_system : tipping.system = tippingCtrl := rfl

theorem tippingNoService_inputs : tippingNoService.inputs = [("quality", 13/2)] := rfl

theorem tippingNoService_system : tippingNoService.system = tippingCtrl := rfl

theorem qualityVar_name : qualityVar.name = "quality" := rfl

theorem serviceVar_name : serviceVar.name = "service" := rfl

theorem tipVar_name : tipVar.name = "tip" := rfl

theorem qualityVar_univ : qualityVar.univ = u0to10 := rfl

theorem serviceVar_univ : serviceVar.univ = u0to10 := rfl

theorem tipVar_univ : tipVar.univ = u0to25 := rfl

theorem rule1_ante : rule1.antecedent = .or (.leaf "quality" "poor") (.leaf "service" "poor") := rfl

theorem rule2_ante : rule2.antecedent = .leaf "service" "average" := rfl

theorem rule3_ante : rule3.antecedent = .or (.leaf "service" "good") (.leaf "quality" "good") := rfl

theorem rule1_cons : rule1.consequent = [("tip", "low")] := rfl

theorem rule2_cons : rule2.consequent = [("tip", "medium")] := rfl

theorem rule3_cons : rule3.consequent = [("tip", "high")] := rfl

theorem rule1_weight : rule1.weight = 1 := rfl

theorem rule2_weight : rule2.weight = 1 := rfl

theorem rule3_weight : rule3.weight = 1 := rfl

set_option maxHeartbeats 1000000 in
theorem qualityVar_poor : qualityVar.termVec "poor" = poorVec := by
  simp [FuzzyVariable.termVec, qualityVar, automf3, trimf, trimfAt,
    listMin, listMax, u0to10, poorVec, List.lookup]
  norm_num

set_option maxHeartbeats 1000000 in
theorem qualityVar_average : qualityVar.termVec "average" = averageVec := by
  simp [FuzzyVariable.termVec, qualityVar, automf3, trimf, trimfAt,
    listMin, listMax, u0to10, averageVec, List.lookup]
  norm_num

set_option maxHeartbeats 1000000 in
theorem qualityVar_good : qualityVar.termVec "good" = goodVec := by
  simp [FuzzyVariable.termVec, qualityVar, automf3, trimf, trimfAt,
    listMin, listMax, u0to10, goodVec, List.lookup]
  norm_num

theorem serviceVar_poor : serviceVar.termVec "poor" = poorVec :=
  qualityVar_poor

theorem serviceVar_average : serviceVar.termVec "average" = averageVec :=
  qualityVar_average

theorem serviceVar_good : serviceVar.termVec "good" = goodVec :=
  qualityVar_good

set_option maxHeartbeats 1000000 in
theorem tipVar_low : tipVar.termVec "low" = lowVec := by
  simp [FuzzyVariable.termVec, tipVar, trimf, trimfAt, u0to25, lowVec,
    List.lookup]
  norm_num

set_option maxHeartbeats 1000000 in
theorem tipVar_medium : tipVar.termVec "medium" = mediumVec := by
  simp [FuzzyVariable.termVec, tipVar, trimf, trimfAt, u0to25,
    mediumVec, List.lookup]
  norm_num

set_option maxHeartbeats 1000000 in
theorem tipVar_high : tipVar.termVec "high" = highVec := by
  simp [FuzzyVariable.termVec, tipVar, trimf, trimfAt, u0to25,
    highVec, List.lookup]
  norm_num

set_option maxHeartbeats 1000000 in
theorem env_quality_poor :
    fuzzEnv tippingCtrl tipInputs "quality" "poor" = 0 := by
  rw [fuzzEnv, tippingCtrl_ante]
  simp [qualityVar_name, serviceVar_name, List.find?, List.lookup,
    tipInputs, qualityVar_poor, qualityVar_univ, interpMembership,
    interpGo, u0to10, poorVec]
  norm_num

set_option maxHeartbeats 1000000 in
theorem env_quality_good :
    fuzzEnv tippingCtrl tipInputs "quality" "good" = 3/10 := by
  rw [fuzzEnv, tippingCtrl_ante]
  simp [qualityVar_name, serviceVar_name, List.find?, List.lookup,
    tipInputs, qualityVar_good, qualityVar_univ, interpMembership,
    interpGo, u0to10, goodVec]
  norm_num

set_option maxHeartbeats 1000000 in
theorem env_service_poor :
    fuzzEnv tippingCtrl tipInputs "service" "poor" = 0 := by
  rw [fuzzEnv, tippingCtrl_ante]
  simp [qualityVar_name, serviceVar_name, List.find?, List.lookup,
    tipInputs, serviceVar_poor, serviceVar_univ, interpMembership,
    interpGo, u0to10, poorVec]
  norm_num

set_option maxHeartbeats 1000000 in
theorem env_service_average :
    fuzzEnv tippingCtrl tipInputs "service" "average" = 1/25 := by
  rw [fuzzEnv, tippingCtrl_ante]
  simp [qualityVar_name, serviceVar_name, List.find?, List.lookup,
    tipInputs, serviceVar_average, serviceVar_univ, interpMembership,
    interpGo, u0to10, averageVec]
  norm_num

set_option maxHeartbeats 1000000 in
theorem env_service_good :
    fuzzEnv tippingCtrl tipInputs "service" "good" = 24/25 := by
  rw [fuzzEnv, tippingCtrl_ante]
  simp [qualityVar_name, serviceVar_name, List.find?, List.lookup,
    tipInputs, serviceVar_good, serviceVar_univ, interpMembership,
    interpGo, u0to10, goodVec]
  norm_num

theorem strength1_eval :
    firingStrength (fuzzEnv tippingCtrl tipInputs) rule1 = 0 := by
  rw [firingStrength, rule1_ante, rule1_weight]
  norm_num [FExpr.eval, env_quality_poor, env_service_poor]

theorem strength2_eval :
    firingStrength (fuzzEnv tippingCtrl tipInputs) rule2 = 1/25 := by
  rw [firingStrength, rule2_ante, rule2_weight]
  norm_num [FExpr.eval, env_service_average, min_def]

theorem strength3_eval :
    firingStrength (fuzzEnv tippingCtrl tipInputs) rule3 = 24/25 := by
  rw [firingStrength, rule3_ante, rule3_weight]
  norm_num [FExpr.eval, env_service_good, env_quality_good, min_def, max_def]

set_option maxHeartbeats 4000000 in
theorem aggregate_eval :
    aggregateFor tippingCtrl (fuzzEnv tippingCtrl tipInputs) tipVar =
      aggTipVec := by
  rw [aggregateFor, tippingCtrl_rules, tipVar_univ]
  simp only [List.foldl_cons, List.foldl_nil, rule1_cons, rule2_cons,
    rule3_cons, tipVar_name]
  simp only [List.filter_cons, List.filter_nil, beq_self_eq_true,
    if_true, ite_true, List.foldl_cons, List.foldl_nil,
    strength1_eval, strength2_eval, strength3_eval,
    tipVar_low, tipVar_medium, tipVar_high]
  norm_num [zipMax, clipVec, u0to25, lowVec, mediumVec, highVec,
    aggTipVec, List.zipWith, min_def, max_def]

set_option maxHeartbeats 2000000 in
theorem centroid_eval :
    defuzzCentroid u0to25 aggTipVec = .ok tipValue := by
  rw [defuzzCentroid]
  simp [u0to25, aggTipVec, tipValue, List.zip, List.zipWith]
  norm_num

set_option maxHeartbeats 1000000 in
theorem computeOutputs_eval :
    computeOutputs tippingCtrl tipInputs = .ok [("tip", tipValue)] := by
  rw [computeOutputs, tippingCtrl_cons]
  simp only [mapExcept, tipVar_univ, aggregate_eval, centroid_eval,
    tipVar_name]

set_option maxHeartbeats 1000000 in
theorem requiredInputs_eval :
    tippingCtrl.requiredInputs = ["service", "quality"] := by
  rw [ControlSystem.requiredInputs, tippingCtrl_rules]
  simp [rule1_ante, rule2_ante, rule3_ante, FExpr.vars, List.dedup,
    List.pwFilter]

theorem tippingMissing_eval :
    tippingCtrl.requiredInputs.filter
      (fun v => (tipInputs.lookup v).isNone) = [] := by
  simp [requiredInputs_eval, tipInputs, List.lookup, List.filter]

set_option maxHeartbeats 1000000 in
theorem tippingCompute_eval :
    tipping.compute = .ok tippingDone := by
  simp only [Simulation.compute, tipping_system, tipping_inputs,
    tippingMissing_eval, List.isEmpty_nil, computeOutputs_eval]
  rfl

set_option maxHeartbeats 1000000 in
theorem tippingNoService_eval :
    tippingNoService.compute = .error (.missingInput ["service"]) := by
  simp only [Simulation.compute, tippingNoService_system,
    tippingNoService_inputs, requiredInputs_eval]
  simp [List.lookup, List.filter]

end Tipping

/-! ### Claim theorems -/

/-- C1: in the tipping scenario (quality and service over [0,10] with
automf(3), tip over [0,25] with low/medium/high, the three notebook rules),
computing with quality = 6.5 and service = 9.8 succeeds and the
centroid-defuzzified tip lies within 1.0 of 20. -/
theorem claim1_tipping_centroid_within_one_of_twenty :
    ∃ s, Tipping.tipping.compute = .ok s ∧
      s.outputs.lookup "tip" = some Tipping.tipValue ∧
      |Tipping.tipValue - 20| ≤ 1 := by
  refine ⟨_, Tipping.tippingCompute_eval, ?_, ?_⟩
  · simp [Tipping.tippingDone, List.lookup]
  · rw [Tipping.tipValue, abs_le]
    constructor <;> norm_num

/-- C2: for every simulation, if some antecedent variable referenced by at
least one rule has no crisp input value, `compute` fails with a
`MissingInputError` naming the absent variable. -/
theorem claim2_compute_missing_input (s : Simulation) (v : String)
    (hv : v ∈ s.system.requiredInputs) (hnone : s.inputs.lookup v = none) :
    ∃ missing, s.compute = .error (.missingInput missing) ∧ v ∈ missing := by
  simp only [Simulation.compute]
  set missing :=
    s.system.requiredInputs.filter (fun v => (s.inputs.lookup v).isNone)
    with hdef
  have hm : v ∈ missing := by
    rw [hdef]
    refine List.mem_filter.mpr ⟨hv, ?_⟩
    rw [hnone]
    rfl
  have hne : missing ≠ [] := by
    intro h
    rw [h] at hm
    cases hm
  have hempty : missing.isEmpty = false := by
    cases h : missing.isEmpty
    · rfl
    · exact absurd (List.isEmpty_iff.mp h) hne
  rw [hempty]
  exact ⟨missing, rfl, hm⟩

/-- C2 witness: the tipping simulation in which `service` was never set
fails with a `MissingInputError` naming `service`. -/
theorem claim2_witness :
    ∃ missing, Tipping.tippingNoService.compute =
        .error (.missingInput missing) ∧ "service" ∈ missing :=
  claim2_compute_missing_input Tipping.tippingNoService "service"
    (by rw [Tipping.tippingNoService_system, Tipping.requiredInputs_eval]
        exact List.mem_cons_self _ _)
    (by rw [Tipping.tippingNoService_inputs]; simp [List.lookup])

/-- C3: centroid defuzzification of an all-zero aggregated membership
vector signals a defuzzification error instead of returning a number. -/
theorem claim3_centroid_all_zero_error (xs m : List ℚ)
    (h : ∀ d ∈ m, d = 0) :
    defuzzCentroid xs m = .error .zeroArea := by
  rw [defuzzCentroid, if_pos (List.sum_eq_zero h)]

/-- C3 witness: a concrete all-zero aggregated set over [0, 1, 2]. -/
theorem claim3_witness :
    defuzzCentroid [0, 1, 2] [0, 0, 0] = .error .zeroArea :=
  claim3_centroid_all_zero_error [0, 1, 2] [0, 0, 0] (by simp)

/-- C4 counterexample: the claim asserts degree 0 at `x = a` for every
`a ≤ b ≤ c`, but for the notebook's own "low" term (a = b = 0, c = 13) the
degree at `x = a = 0` is 1. -/
theorem claim4_counterexample :
    (0:ℚ) ≤ 0 ∧ (0:ℚ) ≤ 13 ∧ trimfAt 0 0 13 0 = 1 :=
  ⟨le_refl 0, by norm_num, by norm_num [trimfAt]⟩

/-- C4 (amended): for `a ≤ b ≤ c` the triangular degree is 1 at `x = b`;
it is 0 at `x = a` provided `a < b` and 0 at `x = c` provided `b < c`; it
is monotonically non-decreasing on [a, b] and non-increasing on [b, c]. -/
theorem claim4_trimf_shape (a b c x1 x2 : ℚ) (hab : a ≤ b) (hbc : b ≤ c) :
    trimfAt a b c b = 1 ∧
    (a < b → trimfAt a b c a = 0) ∧
    (b < c → trimfAt a b c c = 0) ∧
    (a ≤ x1 → x1 ≤ x2 → x2 ≤ b → trimfAt a b c x1 ≤ trimfAt a b c x2) ∧
    (b ≤ x1 → x1 ≤ x2 → x2 ≤ c → trimfAt a b c x2 ≤ trimfAt a b c x1) := by
  refine ⟨trimfAt_peak a b c, ?_, ?_, ?_, ?_⟩
  · intro h
    exact trimfAt_of_le_left a b c a (le_refl a) h
  · intro h
    exact trimfAt_of_ge_right a b c c (le_refl c) h
  · intro h1 h2 h3
    exact trimfAt_mono_up a b c x1 x2 h1 h2 h3
  · intro h1 h2 h3
    exact trimfAt_mono_down a b c x1 x2 h1 h2 h3

/-- C4 witness: the amended claim at the non-degenerate triangle
(0, 1, 2) and the points 1/2 ≤ 1. -/
theorem claim4_witness :
    trimfAt 0 1 2 1 = 1 ∧
    ((0:ℚ) < 1 → trimfAt 0 1 2 0 = 0) ∧
    ((1:ℚ) < 2 → trimfAt 0 1 2 2 = 0) ∧
    ((0:ℚ) ≤ 1/2 → (1:ℚ)/2 ≤ 1 → (1:ℚ) ≤ 1 →
      trimfAt 0 1 2 (1/2) ≤ trimfAt 0 1 2 1) ∧
    ((1:ℚ) ≤ 1/2 → (1:ℚ)/2 ≤ 1 → (1:ℚ) ≤ 2 →
      trimfAt 0 1 2 1 ≤ trimfAt 0 1 2 (1/2)) :=
  claim4_trimf_shape 0 1 2 (1/2) 1 (by norm_num) (by norm_num)

/-- C5: the firing strength of a rule with weight in (0,1] is
`min(value, weight)` of the antecedent tree value at the root, hence never
exceeds the weight. -/
theorem claim5_firing_strength_weight_cap (env : String → String → ℚ)
    (r : Rule) (h0 : 0 < r.weight) (h1 : r.weight ≤ 1) :
    firingStrength env r = min (FExpr.eval env r.antecedent) r.weight ∧
      firingStrength env r ≤ r.weight :=
  ⟨rfl, min_le_right _ _⟩

/-- C5 witness: the second tipping rule under a constant fuzzification
state. -/
theorem claim5_witness :
    firingStrength (fun _ _ => 1/2) Tipping.rule2 =
        min (FExpr.eval (fun _ _ => 1/2) Tipping.rule2.antecedent)
          Tipping.rule2.weight ∧
      firingStrength (fun _ _ => 1/2) Tipping.rule2 ≤ Tipping.rule2.weight :=
  claim5_firing_strength_weight_cap (fun _ _ => 1/2) Tipping.rule2
    (by norm_num [Tipping.rule2_weight])
    (by norm_num [Tipping.rule2_weight])

/-- Evaluation is invariant under any permutation or re-association of
AND/OR children, anywhere in the tree. -/
theorem eval_reassoc (env : String → String → ℚ) (e e' : FExpr)
    (h : Reassoc e e') : FExpr.eval env e = FExpr.eval env e' := by
  induction h with
  | andComm p q => simp [FExpr.eval, min_comm]
  | andAssoc p q r => simp [FExpr.eval, min_assoc]
  | orComm p q => simp [FExpr.eval, max_comm]
  | orAssoc p q r => simp [FExpr.eval, max_assoc]
  | andCongr h1 h2 ih1 ih2 => simp [FExpr.eval, ih1, ih2]
  | orCongr h1 h2 ih1 ih2 => simp [FExpr.eval, ih1, ih2]
  | notCongr h ih => simp [FExpr.eval, ih]
  | refl e => rfl
  | trans h1 h2 ih1 ih2 => exact ih1.trans ih2

/-- C6: under min/max semantics AND/OR are associative and commutative —
re-associating or permuting children anywhere in an antecedent tree leaves
the evaluation and the firing strength unchanged — and firing strengths are
independent of rule insertion order. -/
theorem claim6_minmax_order_independence :
    (∀ (env : String → String → ℚ) (e e' : FExpr), Reassoc e e' →
        FExpr.eval env e = FExpr.eval env e') ∧
    (∀ (env : String → String → ℚ) (r r' : Rule),
        Reassoc r.antecedent r'.antecedent → r.weight = r'.weight →
        firingStrength env r = firingStrength env r') ∧
    (∀ (env : String → String → ℚ) (rs rs' : List Rule), rs.Perm rs' →
        (rs.map (firingStrength env)).Perm (rs'.map (firingStrength env))) := by
  refine ⟨fun env e e' h => eval_reassoc env e e' h, ?_, ?_⟩
  · intro env r r' hre hw
    rw [firingStrength, firingStrength, eval_reassoc env _ _ hre, hw]
  · intro env rs rs' hp
    exact hp.map _

/-- C6 witness: commuting an OR node and swapping two rules. -/
theorem claim6_witness :
    FExpr.eval (fun _ _ => 1/3)
        (.or (.leaf "quality" "poor") (.leaf "service" "poor")) =
      FExpr.eval (fun _ _ => 1/3)
        (.or (.leaf "service" "poor") (.leaf "quality" "poor")) ∧
    ([Tipping.rule1, Tipping.rule2].map (firingStrength (fun _ _ => 1/3))).Perm
      ([Tipping.rule2, Tipping.rule1].map (firingStrength (fun _ _ => 1/3))) :=
  ⟨claim6_minmax_order_independence.1 (fun _ _ => 1/3) _ _
      (Reassoc.orComm _ _),
    claim6_minmax_order_independence.2.2 (fun _ _ => 1/3) _ _
      (List.Perm.swap _ _ _)⟩

/-- C7: whenever the set of samples attaining the maximal degree is
non-empty, smallest-of-maximum ≤ mean-of-maximum ≤ largest-of-maximum. -/
theorem claim7_som_le_mom_le_lom (xs m : List ℚ)
    (h : peaks xs m ≠ []) :
    defuzzSom xs m ≤ defuzzMom xs m ∧ defuzzMom xs m ≤ defuzzLom xs m := by
  rw [defuzzSom, defuzzMom, defuzzLom]
  exact mean_between (peaks xs m) h

/-- C7 witness: universe [0, 1, 2] with degrees [0, 1, 1]. -/
theorem claim7_witness :
    defuzzSom [0, 1, 2] [0, 1, 1] ≤ defuzzMom [0, 1, 2] [0, 1, 1] ∧
      defuzzMom [0, 1, 2] [0, 1, 1] ≤ defuzzLom [0, 1, 2] [0, 1, 1] :=
  claim7_som_le_mom_le_lom [0, 1, 2] [0, 1, 1]
    (by simp [peaks, listMax, List.zip, List.zipWith, List.filter])

/-- C8: for a strictly increasing universe of length ≥ 2 and a
non-negative membership vector of matching length with positive total
area, every one of the five defuzzification methods yields a value inside
the closed range of the universe. -/
theorem claim8_defuzz_within_universe (xs m : List ℚ)
    (hchain : xs.Chain' (fun a b => a < b)) (hlen2 : 2 ≤ xs.length)
    (hlen : xs.length = m.length) (hnn : ∀ d ∈ m, 0 ≤ d)
    (hsum : 0 < m.sum) :
    (∃ r, defuzzCentroid xs m = .ok r ∧ listMin xs ≤ r ∧ r ≤ listMax xs) ∧
    (∃ r, defuzzBisector xs m = .ok r ∧ listMin xs ≤ r ∧ r ≤ listMax xs) ∧
    (listMin xs ≤ defuzzMom xs m ∧ defuzzMom xs m ≤ listMax xs) ∧
    (listMin xs ≤ defuzzSom xs m ∧ defuzzSom xs m ≤ listMax xs) ∧
    (listMin xs ≤ defuzzLom xs m ∧ defuzzLom xs m ≤ listMax xs) := by
  have hsne : m.sum ≠ 0 := ne_of_gt hsum
  have hmne : m ≠ [] := by
    rintro rfl
    simp at hsum
  have hzip_snd : (xs.zip m).map Prod.snd = m :=
    List.map_snd_zip xs m (le_of_eq hlen.symm)
  have hbounds : ∀ p ∈ xs.zip m,
      0 ≤ p.2 ∧ listMin xs ≤ p.1 ∧ p.1 ≤ listMax xs := by
    intro p hp
    obtain ⟨h1, h2⟩ := List.of_mem_zip hp
    exact ⟨hnn p.2 h2, listMin_le xs p.1 h1, le_listMax xs p.1 h1⟩
  obtain ⟨hw1, hw2⟩ :=
    weighted_sum_bounds (xs.zip m) (listMin xs) (listMax xs) hbounds
  rw [hzip_snd] at hw1 hw2
  have hpne : peaks xs m ≠ [] := peaks_ne_nil xs m hlen hmne
  have hsom_mem : defuzzSom xs m ∈ xs :=
    mem_peaks_mem xs m _ (by rw [defuzzSom]; exact listMin_mem _ hpne)
  have hlom_mem : defuzzLom xs m ∈ xs :=
    mem_peaks_mem xs m _ (by rw [defuzzLom]; exact listMax_mem _ hpne)
  have hmom := mean_between (peaks xs m) hpne
  refine ⟨?_, ?_, ?_, ?_, ?_⟩
  · refine ⟨((xs.zip m).map (fun p => p.1 * p.2)).sum / m.sum, ?_, ?_, ?_⟩
    · rw [defuzzCentroid, if_neg hsne]
    · rw [le_div_iff₀ hsum]
      linarith [hw1]
    · rw [div_le_iff₀ hsum]
      linarith [hw2]
  · have hzne : xs.zip m ≠ [] := by
      intro h
      have hz : (xs.zip m).map Prod.snd = [] := by rw [h]; rfl
      rw [hzip_snd] at hz
      exact hmne hz
    have htot : m.sum / 2 ≤ 0 + ((xs.zip m).map Prod.snd).sum := by
      rw [hzip_snd]
      linarith
    obtain ⟨r, hr⟩ := bisGo_total (xs.zip m) 0 (m.sum / 2) hzne htot
    have hrx : r ∈ xs := by
      have hmm := bisGo_some_mem (xs.zip m) 0 (m.sum / 2) r hr
      obtain ⟨p, hp, hpe⟩ := List.mem_map.mp hmm
      cases hpe
      exact (List.of_mem_zip hp).1
    refine ⟨r, ?_, listMin_le xs r hrx, le_listMax xs r hrx⟩
    rw [defuzzBisector, if_neg hsne, hr]
  · constructor
    · calc listMin xs ≤ listMin (peaks xs m) :=
            listMin_le xs _ (mem_peaks_mem xs m _ (listMin_mem _ hpne))
        _ ≤ defuzzMom xs m := hmom.1
    · calc defuzzMom xs m ≤ listMax (peaks xs m) := hmom.2
        _ ≤ listMax xs :=
            le_listMax xs _ (mem_peaks_mem xs m _ (listMax_mem _ hpne))
  · exact ⟨listMin_le xs _ hsom_mem, le_listMax xs _ hsom_mem⟩
  · exact ⟨listMin_le xs _ hlom_mem, le_listMax xs _ hlom_mem⟩

/-- C8 witness: universe [0, 1] with membership vector [0, 1]. -/
theorem claim8_witness :
    (∃ r, defuzzCentroid [0, 1] [0, 1] = .ok r ∧
        listMin [0, 1] ≤ r ∧ r ≤ listMax [0, 1]) ∧
    (∃ r, defuzzBisector [0, 1] [0, 1] = .ok r ∧
        listMin [0, 1] ≤ r ∧ r ≤ listMax [0, 1]) ∧
    (listMin [0, 1] ≤ defuzzMom [0, 1] [0, 1] ∧
      defuzzMom [0, 1] [0, 1] ≤ listMax [0, 1]) ∧
    (listMin [0, 1] ≤ defuzzSom [0, 1] [0, 1] ∧
      defuzzSom [0, 1] [0, 1] ≤ listMax [0, 1]) ∧
    (listMin [0, 1] ≤ defuzzLom [0, 1] [0, 1] ∧
      defuzzLom [0, 1] [0, 1] ≤ listMax [0, 1]) :=
  claim8_defuzz_within_universe [0, 1] [0, 1]
    (by simp) (by simp) (by simp) (by norm_num) (by norm_num)

/-- C9: after `automf(3)` on a strictly increasing universe of length ≥ 2,
the degrees of "poor", "average" and "good" sum to exactly 1 at every
sample point of the universe. -/
theorem claim9_automf3_partition (u : List ℚ)
    (hchain : u.Chain' (fun a b => a < b)) (hlen2 : 2 ≤ u.length)
    (i : ℕ) (hi : i < u.length) :
    (((automf3 u).lookup "poor").getD []).getD i 0 +
      (((automf3 u).lookup "average").getD []).getD i 0 +
      (((automf3 u).lookup "good").getD []).getD i 0 = 1 := by
  have hlohi : listMin u < listMax u := by
    rcases u with _ | ⟨a, _ | ⟨b, t⟩⟩
    · simp at hlen2
    · simp at hlen2
    · have hab : a < b := (List.chain'_cons.mp hchain).1
      have h1 : listMin (a :: b :: t) ≤ a := foldl_min_le_init _ _
      have h2 : b ≤ listMax (a :: b :: t) := le_listMax _ b (by simp)
      linarith
  have hpoor : ((automf3 u).lookup "poor").getD [] =
      trimf u (listMin u - (listMax u - listMin u) / 2) (listMin u)
        (listMin u + (listMax u - listMin u) / 2) := by
    simp [automf3, List.lookup]
  have havg : ((automf3 u).lookup "average").getD [] =
      trimf u (listMin u) (listMin u + (listMax u - listMin u) / 2)
        (listMax u) := by
    simp [automf3, List.lookup]
  have hgood : ((automf3 u).lookup "good").getD [] =
      trimf u (listMax u - (listMax u - listMin u) / 2) (listMax u)
        (listMax u + (listMax u - listMin u) / 2) := by
    simp [automf3, List.lookup]
  have hgd : ∀ (f : ℚ → ℚ), (u.map f).getD i 0 = f (u.getD i 0) := by
    intro f
    rw [List.getD_eq_getElem (u.map f) 0 (by rw [List.length_map]; exact hi),
      List.getElem_map, List.getD_eq_getElem u 0 hi]
  have hx_mem : u.getD i 0 ∈ u := by
    rw [List.getD_eq_getElem u 0 hi]
    exact List.getElem_mem hi
  rw [hpoor, havg, hgood, trimf, trimf, trimf, hgd, hgd, hgd]
  exact automf3_pointwise_sum (listMin u) (listMax u) (u.getD i 0) hlohi
    (listMin_le u _ hx_mem) (le_listMax u _ hx_mem)

/-- C9 witness: the sample point 7 of the quality/service universe. -/
theorem claim9_witness :
    (((automf3 Tipping.u0to10).lookup "poor").getD []).getD 7 0 +
      (((automf3 Tipping.u0to10).lookup "average").getD []).getD 7 0 +
      (((automf3 Tipping.u0to10).lookup "good").getD []).getD 7 0 = 1 :=
  claim9_automf3_partition Tipping.u0to10
    (by norm_num [Tipping.u0to10, List.chain'_cons])
    (by simp [Tipping.u0to10])
    7 (by simp [Tipping.u0to10])

/-- C10: a successful `compute` leaves the crisp input map untouched, and
running `compute` again on the resulting state succeeds with the same
outputs. -/
theorem claim10_compute_frame (s s' : Simulation) (h : s.compute = .ok s') :
    s'.inputs = s.inputs ∧
      ∃ s'', s'.compute = .ok s'' ∧ s''.outputs = s'.outputs := by
  simp only [Simulation.compute] at h
  by_cases hm : (s.system.requiredInputs.filter
      (fun v => (s.inputs.lookup v).isNone)).isEmpty = true
  · rw [if_pos hm] at h
    cases hco : computeOutputs s.system s.inputs with
    | ok outs =>
        rw [hco] at h
        simp only [Except.ok.injEq] at h
        subst h
        refine ⟨rfl, ⟨{ s with outputs := outs }, ?_, rfl⟩⟩
        simp only [Simulation.compute]
        rw [if_pos hm, hco]
    | error e =>
        rw [hco] at h
        exact absurd h (by simp)
  · rw [if_neg hm] at h
    exact absurd h (by simp)

/-- C10 witness: the computed tipping simulation. -/
theorem claim10_witness :
    Tipping.tippingDone.inputs = Tipping.tipping.inputs ∧
      ∃ s'', Tipping.tippingDone.compute = .ok s'' ∧
        s''.outputs = Tipping.tippingDone.outputs :=
  claim10_compute_frame Tipping.tipping Tipping.tippingDone
    Tipping.tippingCompute_eval

end Fuzzy
